import Mathlib

/-!
Shallow embedding of the EnvCLI configuration-resolution and
command-routing engine (`pkg/config/config.go`).

Modelling conventions:
* Go strings are modelled as `String`; in the project locator, where the
  code inspects paths character by character, a path is modelled as a
  `List Char` (a Go string is a sequence of characters).
* A Go map is modelled as an association list with Go map semantics
  (assignment updates the entry in place or adds it; a read of an absent
  key yields the zero value `""`).
* The filesystem is modelled by explicit parameters: the state of each
  candidate configuration file is a function from its path, and the
  persisted property document is a `PropFileState` value that mutating
  operations transform and return.
* The unbounded `for` loop of `GetProjectDirectory` is modelled with a
  fuel parameter: a `none` result means the fuel was exhausted, and the
  termination theorems exhibit a sufficient fuel.
-/

/-- Modelled from the spec: the execution-target record
(`RunConfigurationEntry`); its Go type declaration is not among the
provided sources.  Fields follow spec section 3 and the field accesses in
`config.go` (`Name`, `Image`, `Tag`, `Directory`, `Shell`, `Provides`,
`Scope`); the scope tag is a raw string, as in the reference code. -/
structure RunConfigurationEntry where
  Name : String
  Image : String
  Tag : String
  Directory : String
  Shell : String
  Provides : List String
  Scope : String
  deriving DecidableEq

/-- Modelled from the spec: the project configuration document
(`ProjectConfigrationFile`, keeping the source's spelling); its Go type
declaration is not among the provided sources.  It holds the ordered
sequence of execution-target entries (`Images`). -/
structure ProjectConfigrationFile where
  Images : List RunConfigurationEntry
  deriving DecidableEq

/-- Modelled from the spec: the persisted property document
(`PropertyConfigurationFile`); its Go type declaration is not among the
provided sources.  The `Properties` map is an association list with Go
map semantics. -/
structure PropertyConfigurationFile where
  Properties : List (String × String)
  deriving DecidableEq

/-- On-disk state of a candidate project-configuration file: absent,
present but unparsable, or present and parsed to a document.  This is the
abstraction of `os.Stat` plus the `configor` deserializer used by
`LoadProjectConfig`. -/
inductive FileState where
  | missing : FileState
  | malformed : FileState
  | parsed : ProjectConfigrationFile → FileState
  deriving DecidableEq

/-- On-disk state of the property document (`.envclirc`), abstracting
`os.Stat` plus the deserializer used by `LoadPropertyConfigFile`. -/
inductive PropFileState where
  | missing : PropFileState
  | malformed : PropFileState
  | parsed : PropertyConfigurationFile → PropFileState
  deriving DecidableEq

/-- The allow-list of recognized option names (`config.go` line 22). -/
def validConfigurationOptions : List String :=
  ["http-proxy", "https-proxy", "global-configuration-path", "cache-path", "last-update-check"]

/-- Embedding of `collection.InArray`: membership test by string equality.
All call sites in `config.go` discard the index component of the library
helper, so only the Boolean component is modelled. -/
def InArray (val : String) (array : List String) : Bool :=
  array.any (fun item => item == val)

/-- Go map read with zero-value semantics: `m[k]` yields `""` when `k` is
absent. -/
def mapGetDef (m : List (String × String)) (k : String) : String :=
  match m.find? (fun p => p.1 == k) with
  | some p => p.2
  | none => ""

/-- Go map assignment `m[k] = v`: replace the entry for `k` if present,
otherwise add it. -/
def mapSet (m : List (String × String)) (k v : String) : List (String × String) :=
  match m with
  | [] => [(k, v)]
  | (k0, v0) :: rest => if k0 == k then (k, v) :: rest else (k0, v0) :: mapSet rest k v

/-- Whether the mapping holds an entry for key `k` (Go `_, ok := m[k]`). -/
def mapHasKey (m : List (String × String)) (k : String) : Bool :=
  (m.find? (fun p => p.1 == k)).isSome

/-- Embedding of `collection.MapGetValueOrDefault`: the stored value when
the key is present, the supplied default otherwise (`config.go` line 195). -/
def MapGetValueOrDefault (m : List (String × String)) (k d : String) : String :=
  match m.find? (fun p => p.1 == k) with
  | some p => p.2
  | none => d

/-- Embedding of `LoadProjectConfig` (`config.go` lines 25-37): a missing
file yields the zero-value document and a `nil` error; a present file is
deserialized with the error discarded, so a malformed file also yields the
zero-value document and a `nil` error. -/
def LoadProjectConfig (fs : String → FileState) (configFile : String) :
    ProjectConfigrationFile × Option String :=
  match fs configFile with
  | FileState.missing => ({ Images := [] }, none)
  | FileState.malformed => ({ Images := [] }, none)
  | FileState.parsed cfg => (cfg, none)

/-- Embedding of `LoadPropertyConfigFile` (`config.go` lines 45-58): the
`Properties` map is initialized empty; a missing file yields the empty
store and a `nil` error; a present file is deserialized with the error
discarded (a malformed file leaves the zero-value store). -/
def LoadPropertyConfigFile (disk : PropFileState) :
    PropertyConfigurationFile × Option String :=
  match disk with
  | PropFileState.missing => ({ Properties := [] }, none)
  | PropFileState.malformed => ({ Properties := [] }, none)
  | PropFileState.parsed cfg => (cfg, none)

/-- Embedding of `SavePropertyConfigFile` (`config.go` lines 66-75): the
document is marshalled and written, so the file afterwards holds exactly
`cfg` (the 0600 permission bits are not modelled). -/
def SavePropertyConfigFile (cfg : PropertyConfigurationFile) : PropFileState :=
  PropFileState.parsed cfg

/-- Embedding of `SetPropertyConfigEntry` (`config.go` lines 78-90): load
the store, and only for an allow-listed key update the entry and save. -/
def SetPropertyConfigEntry (disk : PropFileState) (varName varValue : String) :
    PropFileState :=
  let propConfig := (LoadPropertyConfigFile disk).1
  if InArray varName validConfigurationOptions then
    SavePropertyConfigFile { propConfig with Properties := mapSet propConfig.Properties varName varValue }
  else disk

/-- Embedding of `GetPropertyConfigEntry` (`config.go` lines 93-104): load
the store and read the key when allow-listed, else return `""`. -/
def GetPropertyConfigEntry (disk : PropFileState) (varName : String) : String :=
  let propConfig := (LoadPropertyConfigFile disk).1
  if InArray varName validConfigurationOptions then
    mapGetDef propConfig.Properties varName
  else ""

/-- Embedding of `UnsetPropertyConfigEntry` (`config.go` lines 107-119):
load the store, and only for an allow-listed key assign `""` and save. -/
def UnsetPropertyConfigEntry (disk : PropFileState) (varName : String) :
    PropFileState :=
  let propConfig := (LoadPropertyConfigFile disk).1
  if InArray varName validConfigurationOptions then
    SavePropertyConfigFile { propConfig with Properties := mapSet propConfig.Properties varName "" }
  else disk

/-- Embedding of `MergeConfigurations` (`config.go` lines 159-172): the
entries of the first document are appended with scope `"Project"`, then
the entries of the second with scope `"Global"`. -/
def MergeConfigurations (configProject configGlobal : ProjectConfigrationFile) :
    ProjectConfigrationFile :=
  { Images :=
      configProject.Images.map (fun image => { image with Scope := "Project" })
        ++ configGlobal.Images.map (fun image => { image with Scope := "Global" }) }

/-- Whether an entry's `Provides` list contains the command name, by exact
string comparison (the inner loop of `config.go` lines 209-215). -/
def providesCommand (element : RunConfigurationEntry) (commandName : String) : Bool :=
  element.Provides.any (fun providedCommand => providedCommand == commandName)

/-- The command search of `GetCommandConfiguration` (`config.go` lines
207-216): scan the merged entries in order and return the first whose
`Provides` list contains the command name. -/
def searchCommand (commandName : String) : List RunConfigurationEntry → Option RunConfigurationEntry
  | [] => none
  | element :: rest =>
    if providesCommand element commandName then some element
    else searchCommand commandName rest

/-- The project-scope part of the candidate file list (`config.go` lines
187-191): `<projectDir>/.envcli.yml` when a project root was found,
nothing otherwise.  The outcome of `GetProjectDirectory` is passed as an
`Option`. -/
def projectFileList : Option String → List String
  | some projectDir => [projectDir ++ "/.envcli.yml"]
  | none => []

/-- The candidate configuration file list of `GetCommandConfiguration`
(`config.go` lines 184-197): project file, then the caller-supplied custom
includes, then the global configuration file. -/
def configFilesFor (projectDir : Option String) (customIncludes : List String)
    (globalConfigPath : String) : List String :=
  projectFileList projectDir ++ customIncludes ++ [globalConfigPath ++ "/.envcli.yml"]

/-- The global configuration directory (`config.go` line 195): the
`global-configuration-path` property when present, else the default
(execution) directory. -/
def globalConfigurationPath (propDisk : PropFileState) (defaultDir : String) : String :=
  MapGetValueOrDefault (LoadPropertyConfigFile propDisk).1.Properties
    "global-configuration-path" defaultDir

/-- The merge loop of `GetCommandConfiguration` (`config.go` lines
199-204): fold `MergeConfigurations` over the loaded candidate documents,
starting from the zero-value configuration and discarding load errors. -/
def finalConfigurationOf (fs : String → FileState) (configFiles : List String) :
    ProjectConfigrationFile :=
  configFiles.foldl
    (fun acc configFile => MergeConfigurations acc (LoadProjectConfig fs configFile).1)
    { Images := [] }

/-- Embedding of `GetCommandConfiguration` (`config.go` lines 175-221).
The filesystem (`fs`), the property-document state (`propDisk`), the
outcome of the project-directory search (`projectDir`) and the default
global directory (`defaultDir`, the execution directory) are explicit
parameters. -/
def GetCommandConfiguration (fs : String → FileState) (propDisk : PropFileState)
    (commandName : String) (projectDir : Option String) (customIncludes : List String)
    (defaultDir : String) : Except String RunConfigurationEntry :=
  match (LoadPropertyConfigFile propDisk).2 with
  | some propConfigErr => Except.error propConfigErr
  | none =>
    let globalConfigPath := globalConfigurationPath propDisk defaultDir
    let configFiles := configFilesFor projectDir customIncludes globalConfigPath
    let finalConfiguration := finalConfigurationOf fs configFiles
    match searchCommand commandName finalConfiguration.Images with
    | some element => Except.ok element
    | none => Except.error ("no configuration for command " ++ commandName ++ " found")

/-! ### Project locator

`GetProjectDirectory` (`config.go` lines 131-156) walks upward from the
working directory.  Paths are modelled as `List Char`; `strings.Split`,
`filepath.Dir` and `path.Clean` (Unix separator, no volume names) are
embedded below.  The `os.Stat` probe for `<dir>/.envcli.yml` is abstracted
as the predicate `hasMarker` on directories. -/

/-- Embedding of `strings.Split(s, "/")` on character lists. -/
def splitOnSlash : List Char → List (List Char)
  | [] => [[]]
  | ch :: rest =>
    if ch = '/' then [] :: splitOnSlash rest
    else (ch :: (splitOnSlash rest).headD []) :: (splitOnSlash rest).tail

/-- Embedding of `strings.Join(parts, "/")`, the inverse used to state
facts about canonical paths. -/
def joinSlash : List (List Char) → List Char
  | [] => []
  | [c] => c
  | c :: rest => c ++ '/' :: joinSlash rest

/-- The canonical absolute Unix path with the given components:
`absPath [c1, …, cn] = "/c1/…/cn"` and `absPath [] = "/"`. -/
def absPath (comps : List (List Char)) : List Char :=
  '/' :: joinSlash comps

/-- The component pass of Go's `path.Clean`: drop empty and `.` components,
resolve `..` against the accumulator (dropping it at the root when the
path is rooted). -/
def cleanComponents (rooted : Bool) : List (List Char) → List (List Char) → List (List Char)
  | [], acc => acc.reverse
  | c :: rest, acc =>
    if c = [] ∨ c = ['.'] then cleanComponents rooted rest acc
    else if c = ['.', '.'] then
      match acc with
      | [] =>
        if rooted then cleanComponents rooted rest []
        else cleanComponents rooted rest [['.', '.']]
      | a :: acc0 =>
        if a = ['.', '.'] then cleanComponents rooted rest (['.', '.'] :: a :: acc0)
        else cleanComponents rooted rest acc0
    else cleanComponents rooted rest (c :: acc)

/-- Embedding of Go's `path.Clean` for the Unix separator: an empty path
cleans to `"."`; otherwise the components are normalized and rejoined,
with a leading `"/"` when rooted. -/
def pathClean (l : List Char) : List Char :=
  match l with
  | [] => ['.']
  | ch :: _ =>
    let rooted := ch == '/'
    let comps := cleanComponents rooted (splitOnSlash l) []
    let joined := joinSlash comps
    if rooted then (if joined = [] then ['/'] else '/' :: joined)
    else (if joined = [] then ['.'] else joined)

/-- The prefix of the path up to and including its last separator (empty
when there is none), as computed by the backwards scan in `filepath.Dir`. -/
def dirUpToLastSlash (l : List Char) : List Char :=
  ((l.reverse.dropWhile (fun c => c != '/')).reverse)

/-- Embedding of `filepath.Dir` for Unix paths: clean the prefix up to the
last separator. -/
def filepathDir (l : List Char) : List Char :=
  pathClean (dirUpToLastSlash l)

/-- Outcome of the project-directory search: the found directory, or the
`NotFound` error of `config.go` lines 147-148. -/
inductive LocateResult where
  | found : List Char → LocateResult
  | notFound : LocateResult
  deriving DecidableEq

/-- The `for` loop of `GetProjectDirectory` (`config.go` lines 140-153),
with fuel: check the marker in the current directory; stop with `NotFound`
at a Windows drive root (`directoryParts[0] + "\\"`) or at `"/"`; otherwise
ascend via `filepath.Dir`.  `part0` is the first component of the original
split, computed once before the loop. -/
def GetProjectDirectoryLoop (hasMarker : List Char → Bool) (part0 : List Char) :
    Nat → List Char → Option LocateResult
  | 0, _ => none
  | fuel + 1, currentDirectory =>
    if hasMarker currentDirectory then some (LocateResult.found currentDirectory)
    else if part0 ++ ['\\'] = currentDirectory ∨ currentDirectory = ['/'] then
      some LocateResult.notFound
    else GetProjectDirectoryLoop hasMarker part0 fuel (filepathDir currentDirectory)

/-- Embedding of `GetProjectDirectory` (`config.go` lines 131-156): split
the start directory once, then run the ascent loop.  The working directory
is passed explicitly as `startDirectory`. -/
def GetProjectDirectory (hasMarker : List Char → Bool) (startDirectory : List Char)
    (fuel : Nat) : Option LocateResult :=
  GetProjectDirectoryLoop hasMarker ((splitOnSlash startDirectory).headD []) fuel startDirectory

/-- A canonical path component: nonempty, free of separators, and neither
`.` nor `..`. -/
def goodComp (c : List Char) : Bool :=
  decide (c ≠ [] ∧ '/' ∉ c ∧ c ≠ ['.'] ∧ c ≠ ['.', '.'])

/-- All components canonical. -/
def goodComps (comps : List (List Char)) : Bool :=
  comps.all goodComp

/-! ### Sample documents used by witnesses and counterexamples -/

/-- A sample execution-target entry providing the given commands. -/
def sampleEntry (n : String) (cmds : List String) : RunConfigurationEntry :=
  { Name := n, Image := n, Tag := "latest", Directory := "/work", Shell := "sh",
    Provides := cmds, Scope := "" }

/-- A filesystem with a project document, one extra include and a global
document, each declaring one entry. -/
def fsThreeDocs : String → FileState := fun p =>
  if p = "/proj/.envcli.yml" then
    FileState.parsed { Images := [sampleEntry "projentry" ["pbuild"]] }
  else if p = "/inc.yml" then
    FileState.parsed { Images := [sampleEntry "incentry" ["ibuild"]] }
  else if p = "/glob/.envcli.yml" then
    FileState.parsed { Images := [sampleEntry "globentry" ["gbuild"]] }
  else FileState.missing

/-- A filesystem where the project document and the global document both
declare the command `"build"`, routed to different images. -/
def fsProjGlob : String → FileState := fun p =>
  if p = "/proj/.envcli.yml" then
    FileState.parsed { Images := [sampleEntry "imageA" ["build"]] }
  else if p = "/gl/.envcli.yml" then
    FileState.parsed { Images := [sampleEntry "imageB" ["build"]] }
  else FileState.missing

/-! ### Association-list lemmas for the property store -/

lemma mapGetDef_mapSet_self (m : List (String × String)) (k v : String) :
    mapGetDef (mapSet m k v) k = v := by
  induction m with
  | nil => simp [mapSet, mapGetDef]
  | cons p rest ih =>
    obtain ⟨k0, v0⟩ := p
    by_cases h : k0 = k
    · subst h
      simp [mapSet, mapGetDef]
    · have hb : (k0 == k) = false := by simp [h]
      simpa [mapSet, hb, mapGetDef] using ih

lemma mapHasKey_mapSet_self (m : List (String × String)) (k v : String) :
    mapHasKey (mapSet m k v) k = true := by
  induction m with
  | nil => simp [mapSet, mapHasKey]
  | cons p rest ih =>
    obtain ⟨k0, v0⟩ := p
    by_cases h : k0 = k
    · subst h
      simp [mapSet, mapHasKey]
    · have hb : (k0 == k) = false := by simp [h]
      simpa [mapSet, hb, mapHasKey] using ih

lemma mapGetDef_mapSet_other (m : List (String × String)) (k v k2 : String) (h : k2 ≠ k) :
    mapGetDef (mapSet m k v) k2 = mapGetDef m k2 := by
  have hk : (k == k2) = false := by simp [Ne.symm h]
  induction m with
  | nil => simp [mapSet, mapGetDef, hk]
  | cons p rest ih =>
    obtain ⟨k0, v0⟩ := p
    by_cases h0 : k0 = k
    · subst h0
      simp [mapSet, mapGetDef, hk]
    · have hb : (k0 == k) = false := by simp [h0]
      by_cases h2 : k0 = k2
      · subst h2
        simp [mapSet, hb, mapGetDef]
      · have hb2 : (k0 == k2) = false := by simp [h2]
        simpa [mapSet, hb, hb2, mapGetDef] using ih

lemma mapHasKey_mapSet_other (m : List (String × String)) (k v k2 : String) (h : k2 ≠ k) :
    mapHasKey (mapSet m k v) k2 = mapHasKey m k2 := by
  have hk : (k == k2) = false := by simp [Ne.symm h]
  induction m with
  | nil => simp [mapSet, mapHasKey, hk]
  | cons p rest ih =>
    obtain ⟨k0, v0⟩ := p
    by_cases h0 : k0 = k
    · subst h0
      simp [mapSet, mapHasKey, hk]
    · have hb : (k0 == k) = false := by simp [h0]
      by_cases h2 : k0 = k2
      · subst h2
        simp [mapSet, hb, mapHasKey]
      · have hb2 : (k0 == k2) = false := by simp [h2]
        simpa [mapSet, hb, hb2, mapHasKey] using ih

/-! ### Merge and routing lemmas -/

lemma scope_overwrite_comp (s t : String) :
    ((fun i : RunConfigurationEntry => { i with Scope := s })
        ∘ (fun i : RunConfigurationEntry => { i with Scope := t }))
      = (fun i : RunConfigurationEntry => { i with Scope := s }) := by
  funext i
  rfl

lemma map_scope_overwrite (s t : String) (l : List RunConfigurationEntry) :
    (l.map (fun i => { i with Scope := t })).map (fun i => { i with Scope := s })
      = l.map (fun i => { i with Scope := s }) := by
  rw [List.map_map, scope_overwrite_comp]

lemma foldMerge_images (fs : String → FileState) (files : List String) (g : String) :
    ∀ acc : ProjectConfigrationFile,
      (List.foldl (fun acc configFile => MergeConfigurations acc (LoadProjectConfig fs configFile).1)
          acc (files ++ [g])).Images
      = (acc.Images ++ (files.map (fun f => (LoadProjectConfig fs f).1.Images)).flatten).map
          (fun i => { i with Scope := "Project" })
        ++ ((LoadProjectConfig fs g).1.Images).map (fun i => { i with Scope := "Global" }) := by
  induction files with
  | nil =>
    intro acc
    simp [MergeConfigurations]
  | cons f rest ih =>
    intro acc
    have hstep := ih (MergeConfigurations acc (LoadProjectConfig fs f).1)
    simp only [List.cons_append, List.foldl_cons] at hstep ⊢
    rw [hstep]
    simp [MergeConfigurations, List.map_append, List.map_map, scope_overwrite_comp,
      List.append_assoc]

lemma finalConfigurationOf_images (fs : String → FileState) (files : List String) (g : String) :
    (finalConfigurationOf fs (files ++ [g])).Images
    = ((files.map (fun f => (LoadProjectConfig fs f).1.Images)).flatten).map
        (fun i => { i with Scope := "Project" })
      ++ ((LoadProjectConfig fs g).1.Images).map (fun i => { i with Scope := "Global" }) := by
  simpa [finalConfigurationOf] using foldMerge_images fs files g { Images := [] }

lemma providesCommand_iff (e : RunConfigurationEntry) (c : String) :
    providesCommand e c = true ↔ c ∈ e.Provides := by
  simp [providesCommand, List.any_eq_true]

lemma searchCommand_append_some (c : String) (l1 l2 : List RunConfigurationEntry)
    (e : RunConfigurationEntry) (h : searchCommand c l1 = some e) :
    searchCommand c (l1 ++ l2) = some e := by
  induction l1 with
  | nil => simp [searchCommand] at h
  | cons a rest ih =>
    by_cases hp : providesCommand a c
    · simpa [searchCommand, hp] using h
    · simp only [searchCommand, hp, if_false, List.cons_append, Bool.false_eq_true] at h ⊢
      exact ih h

lemma searchCommand_of_exists (c : String) (l : List RunConfigurationEntry)
    (h : ∃ e ∈ l, providesCommand e c = true) :
    ∃ e, searchCommand c l = some e ∧ e ∈ l ∧ providesCommand e c = true := by
  induction l with
  | nil => simp at h
  | cons a rest ih =>
    by_cases hp : providesCommand a c
    · exact ⟨a, by simp [searchCommand, hp], by simp, hp⟩
    · obtain ⟨e, he, hpe⟩ := h
      rcases List.mem_cons.mp he with rfl | hmem
      · exact absurd hpe (by simp [hp])
      · obtain ⟨e2, hs, hm, hp2⟩ := ih ⟨e, hmem, hpe⟩
        exact ⟨e2, by simp [searchCommand, hp, hs], by simp [hm], hp2⟩

lemma searchCommand_eq_some_iff (c : String) (l : List RunConfigurationEntry)
    (e : RunConfigurationEntry) :
    searchCommand c l = some e ↔
      ∃ n, l.get? n = some e ∧ providesCommand e c = true
        ∧ ∀ m, m < n → ∀ e2, l.get? m = some e2 → providesCommand e2 c = false := by
  induction l generalizing e with
  | nil => simp [searchCommand]
  | cons a rest ih =>
    by_cases hp : providesCommand a c
    · constructor
      · intro h
        have he : a = e := by simpa [searchCommand, hp] using h
        subst he
        exact ⟨0, by simp, hp, fun m hm => absurd hm (Nat.not_lt_zero m)⟩
      · rintro ⟨n, hget, hpe, hmin⟩
        cases n with
        | zero =>
          have : a = e := by simpa using hget
          subst this
          simp [searchCommand, hp]
        | succ n2 =>
          have hc := hmin 0 (Nat.succ_pos n2) a (by simp)
          rw [hp] at hc
          exact absurd hc (by simp)
    · have hstep : searchCommand c (a :: rest) = searchCommand c rest := by
        simp [searchCommand, hp]
      rw [hstep, ih]
      constructor
      · rintro ⟨n, hget, hpe, hmin⟩
        refine ⟨n + 1, by simpa using hget, hpe, ?_⟩
        intro m hm e2 hget2
        cases m with
        | zero =>
          have : a = e2 := by simpa using hget2
          subst this
          simpa using hp
        | succ m2 =>
          exact hmin m2 (Nat.succ_lt_succ_iff.mp hm) e2 (by simpa using hget2)
      · rintro ⟨n, hget, hpe, hmin⟩
        cases n with
        | zero =>
          have : a = e := by simpa using hget
          subst this
          exact absurd hpe (by simp [hp])
        | succ n2 =>
          refine ⟨n2, by simpa using hget, hpe, ?_⟩
          intro m hm e2 hget2
          exact hmin (m + 1) (Nat.succ_lt_succ hm) e2 (by simpa using hget2)

lemma GetCommandConfiguration_eq (fs : String → FileState) (propDisk : PropFileState)
    (commandName : String) (projectDir : Option String) (customIncludes : List String)
    (defaultDir : String) :
    GetCommandConfiguration fs propDisk commandName projectDir customIncludes defaultDir
    = match searchCommand commandName
          (finalConfigurationOf fs (configFilesFor projectDir customIncludes
            (globalConfigurationPath propDisk defaultDir))).Images with
      | some element => Except.ok element
      | none => Except.error ("no configuration for command " ++ commandName ++ " found") := by
  cases propDisk <;> rfl

lemma configFilesFor_snoc (projectDir : Option String) (customIncludes : List String)
    (globalConfigPath : String) :
    configFilesFor projectDir customIncludes globalConfigPath
    = (projectFileList projectDir ++ customIncludes) ++ [globalConfigPath ++ "/.envcli.yml"] := by
  simp [configFilesFor]

/-! ### Claim theorems: merging and routing -/

/-- Claim C1: a command name declared both by an entry of the project
document and by an entry of the global document resolves, through
`GetCommandConfiguration`, to an entry originating from the project
document (re-tagged with scope `"Project"`), never to the global one. -/
theorem getCommandConfiguration_project_precedence (fs : String → FileState)
    (propDisk : PropFileState) (commandName : String) (projectDir : String)
    (customIncludes : List String) (defaultDir : String)
    (hp : ∃ e0 ∈ (LoadProjectConfig fs (projectDir ++ "/.envcli.yml")).1.Images,
      commandName ∈ e0.Provides)
    (_hg : ∃ eg ∈ (LoadProjectConfig fs
        (globalConfigurationPath propDisk defaultDir ++ "/.envcli.yml")).1.Images,
      commandName ∈ eg.Provides) :
    ∃ e, GetCommandConfiguration fs propDisk commandName (some projectDir) customIncludes
        defaultDir = Except.ok e
      ∧ ∃ e0, e0 ∈ (LoadProjectConfig fs (projectDir ++ "/.envcli.yml")).1.Images
        ∧ commandName ∈ e0.Provides ∧ e = { e0 with Scope := "Project" } := by
  obtain ⟨e0, hm0, hin0⟩ := hp
  have hex : ∃ e ∈ (LoadProjectConfig fs (projectDir ++ "/.envcli.yml")).1.Images.map
      (fun i => { i with Scope := "Project" }), providesCommand e commandName = true := by
    refine ⟨{ e0 with Scope := "Project" }, List.mem_map_of_mem _ hm0, ?_⟩
    rw [providesCommand_iff]
    simpa using hin0
  obtain ⟨e, hs, hmem, hprov⟩ := searchCommand_of_exists commandName _ hex
  have hL : (finalConfigurationOf fs (configFilesFor (some projectDir) customIncludes
        (globalConfigurationPath propDisk defaultDir))).Images
      = (LoadProjectConfig fs (projectDir ++ "/.envcli.yml")).1.Images.map
          (fun i => { i with Scope := "Project" })
        ++ (((customIncludes.map (fun f => (LoadProjectConfig fs f).1.Images)).flatten).map
              (fun i => { i with Scope := "Project" })
            ++ ((LoadProjectConfig fs
                (globalConfigurationPath propDisk defaultDir ++ "/.envcli.yml")).1.Images).map
              (fun i => { i with Scope := "Global" })) := by
    rw [configFilesFor_snoc, finalConfigurationOf_images]
    simp [projectFileList, List.map_append, List.append_assoc]
  have hsearch : searchCommand commandName
      (finalConfigurationOf fs (configFilesFor (some projectDir) customIncludes
        (globalConfigurationPath propDisk defaultDir))).Images = some e := by
    rw [hL]
    exact searchCommand_append_some commandName _ _ e hs
  refine ⟨e, ?_, ?_⟩
  · rw [GetCommandConfiguration_eq, hsearch]
  · obtain ⟨e1, hm1, heq⟩ := List.mem_map.mp hmem
    refine ⟨e1, hm1, ?_, heq.symm⟩
    have : commandName ∈ e.Provides := (providesCommand_iff e commandName).mp hprov
    rw [← heq] at this
    simpa using this

/-- Claim C1 witness: the project document routes `"build"` to `imageA`,
the global one to `imageB`; resolution returns the project entry. -/
theorem getCommandConfiguration_project_precedence_witness :
    (∃ e0 ∈ (LoadProjectConfig fsProjGlob ("/proj" ++ "/.envcli.yml")).1.Images,
      "build" ∈ e0.Provides)
    ∧ (∃ eg ∈ (LoadProjectConfig fsProjGlob
        (globalConfigurationPath PropFileState.missing "/gl" ++ "/.envcli.yml")).1.Images,
      "build" ∈ eg.Provides)
    ∧ ∃ e, GetCommandConfiguration fsProjGlob PropFileState.missing "build" (some "/proj") []
        "/gl" = Except.ok e
      ∧ ∃ e0, e0 ∈ (LoadProjectConfig fsProjGlob ("/proj" ++ "/.envcli.yml")).1.Images
        ∧ "build" ∈ e0.Provides ∧ e = { e0 with Scope := "Project" } :=
  ⟨by decide, by decide,
    getCommandConfiguration_project_precedence fsProjGlob PropFileState.missing "build" "/proj"
      [] "/gl" (by decide) (by decide)⟩

/-- Claim C2 counterexample: with a project document, one extra include and
a global document, the entry contributed by the extra include carries scope
`"Project"` after the merge, not `"Global"` as the claim states. -/
theorem mergeScopes_counterexample :
    ∃ e ∈ (finalConfigurationOf fsThreeDocs
        (configFilesFor (some "/proj") ["/inc.yml"] "/glob")).Images,
      e.Name = "incentry" ∧ e.Scope = "Project" ∧ e.Scope ≠ "Global" := by
  decide

/-- Claim C2 (amended): after the merge loop, the entries of every document
loaded before the last one — the project document and every caller-supplied
extra include — carry scope `"Project"`, and only the entries of the
last-loaded document (the global configuration document) carry scope
`"Global"`. -/
theorem mergeScopes_amended (fs : String → FileState) (projectDir : Option String)
    (customIncludes : List String) (globalConfigPath : String) :
    (finalConfigurationOf fs (configFilesFor projectDir customIncludes globalConfigPath)).Images
    = (((projectFileList projectDir ++ customIncludes).map
          (fun f => (LoadProjectConfig fs f).1.Images)).flatten).map
        (fun i => { i with Scope := "Project" })
      ++ ((LoadProjectConfig fs (globalConfigPath ++ "/.envcli.yml")).1.Images).map
        (fun i => { i with Scope := "Global" }) := by
  rw [configFilesFor_snoc, finalConfigurationOf_images]

/-- Claim C3: `GetCommandConfiguration` returns entry `e` exactly when `e`
is the first entry of the merged configuration whose `Provides` list
contains the command name by exact string equality: every earlier merged
entry provides no string equal to the command name. -/
theorem getCommandConfiguration_first_match (fs : String → FileState)
    (propDisk : PropFileState) (commandName : String) (projectDir : Option String)
    (customIncludes : List String) (defaultDir : String) (e : RunConfigurationEntry) :
    GetCommandConfiguration fs propDisk commandName projectDir customIncludes defaultDir
      = Except.ok e
    ↔ ∃ n,
        (finalConfigurationOf fs (configFilesFor projectDir customIncludes
          (globalConfigurationPath propDisk defaultDir))).Images.get? n = some e
        ∧ commandName ∈ e.Provides
        ∧ ∀ m, m < n → ∀ e2,
            (finalConfigurationOf fs (configFilesFor projectDir customIncludes
              (globalConfigurationPath propDisk defaultDir))).Images.get? m = some e2 →
            commandName ∉ e2.Provides := by
  rw [GetCommandConfiguration_eq]
  have hiff := searchCommand_eq_some_iff commandName
    (finalConfigurationOf fs (configFilesFor projectDir customIncludes
      (globalConfigurationPath propDisk defaultDir))).Images e
  cases hsc : searchCommand commandName
      (finalConfigurationOf fs (configFilesFor projectDir customIncludes
        (globalConfigurationPath propDisk defaultDir))).Images with
  | some el =>
    rw [hsc] at hiff
    constructor
    · intro h
      have hee : el = e := by
        simpa using h
      obtain ⟨n, hget, hpe, hmin⟩ := hiff.mp (by rw [hee])
      refine ⟨n, hget, (providesCommand_iff e commandName).mp hpe, ?_⟩
      intro m hm e2 hget2
      have hfalse := hmin m hm e2 hget2
      rw [← providesCommand_iff]
      simp [hfalse]
    · rintro ⟨n, hget, hpe, hmin⟩
      have hsome : searchCommand commandName
          (finalConfigurationOf fs (configFilesFor projectDir customIncludes
            (globalConfigurationPath propDisk defaultDir))).Images = some e := by
        rw [searchCommand_eq_some_iff]
        refine ⟨n, hget, (providesCommand_iff e commandName).mpr hpe, ?_⟩
        intro m hm e2 hget2
        have hni := hmin m hm e2 hget2
        have hnt : ¬ providesCommand e2 commandName = true := by
          rw [providesCommand_iff]
          exact hni
        simpa using hnt
      rw [hsc] at hsome
      simpa using hsome
  | none =>
    constructor
    · intro h
      exact absurd h (by simp)
    · rintro ⟨n, hget, hpe, hmin⟩
      have hex : ∃ e2 ∈ (finalConfigurationOf fs (configFilesFor projectDir customIncludes
          (globalConfigurationPath propDisk defaultDir))).Images,
          providesCommand e2 commandName = true :=
        ⟨e, List.get?_mem hget, (providesCommand_iff e commandName).mpr hpe⟩
      obtain ⟨e2, hs2, _, _⟩ := searchCommand_of_exists commandName _ hex
      rw [hsc] at hs2
      exact absurd hs2 (by simp)

/-- Claim C8: a missing or malformed candidate file contributes zero
entries and no error, and its presence anywhere in the include list does
not change the outcome of resolution: the remaining documents are still
loaded and merged. -/
theorem loadFailure_partial_tolerance (fs : String → FileState) (propDisk : PropFileState)
    (commandName : String) (projectDir : Option String) (pre post : List String)
    (badPath : String) (defaultDir : String)
    (h : fs badPath = FileState.missing ∨ fs badPath = FileState.malformed) :
    LoadProjectConfig fs badPath = ({ Images := [] }, none)
    ∧ GetCommandConfiguration fs propDisk commandName projectDir (pre ++ badPath :: post)
        defaultDir
      = GetCommandConfiguration fs propDisk commandName projectDir (pre ++ post) defaultDir := by
  have hload : LoadProjectConfig fs badPath = ({ Images := [] }, none) := by
    rcases h with h | h <;> simp [LoadProjectConfig, h]
  refine ⟨hload, ?_⟩
  rw [GetCommandConfiguration_eq, GetCommandConfiguration_eq]
  have himg : (finalConfigurationOf fs (configFilesFor projectDir (pre ++ badPath :: post)
        (globalConfigurationPath propDisk defaultDir))).Images
      = (finalConfigurationOf fs (configFilesFor projectDir (pre ++ post)
        (globalConfigurationPath propDisk defaultDir))).Images := by
    rw [mergeScopes_amended, mergeScopes_amended]
    simp [List.map_append, List.flatten_append, hload]
  rw [himg]

/-- Claim C8 witness: a missing include file between project and global
documents contributes nothing and blocks nothing. -/
theorem loadFailure_partial_tolerance_witness :
    (fsProjGlob "/absent.yml" = FileState.missing
      ∨ fsProjGlob "/absent.yml" = FileState.malformed)
    ∧ LoadProjectConfig fsProjGlob "/absent.yml" = ({ Images := [] }, none)
    ∧ GetCommandConfiguration fsProjGlob PropFileState.missing "build" (some "/proj")
        ([] ++ "/absent.yml" :: []) "/gl"
      = GetCommandConfiguration fsProjGlob PropFileState.missing "build" (some "/proj")
        ([] ++ []) "/gl" :=
  ⟨Or.inl (by decide),
    (loadFailure_partial_tolerance fsProjGlob PropFileState.missing "build" (some "/proj")
      [] [] "/absent.yml" "/gl" (Or.inl (by decide))).1,
    (loadFailure_partial_tolerance fsProjGlob PropFileState.missing "build" (some "/proj")
      [] [] "/absent.yml" "/gl" (Or.inl (by decide))).2⟩

/-- Claim C10: both loaders return a `nil` error on every input — the
deserializer's error is discarded — so the `LoadError` branch of
`GetCommandConfiguration` is unreachable and the only possible failure is
the command-not-found error. -/
theorem load_errors_always_nil (fs : String → FileState) (propDisk : PropFileState)
    (path : String) :
    (LoadProjectConfig fs path).2 = none
    ∧ (LoadPropertyConfigFile propDisk).2 = none
    ∧ ∀ (commandName : String) (projectDir : Option String) (customIncludes : List String)
        (defaultDir : String) (err : String),
        GetCommandConfiguration fs propDisk commandName projectDir customIncludes defaultDir
          = Except.error err →
        err = "no configuration for command " ++ commandName ++ " found" := by
  refine ⟨?_, ?_, ?_⟩
  · cases hfp : fs path <;> simp [LoadProjectConfig, hfp]
  · cases propDisk <;> rfl
  · intro commandName projectDir customIncludes defaultDir err h
    rw [GetCommandConfiguration_eq] at h
    cases hsc : searchCommand commandName
        (finalConfigurationOf fs (configFilesFor projectDir customIncludes
          (globalConfigurationPath propDisk defaultDir))).Images with
    | some el =>
      rw [hsc] at h
      exact absurd h (by simp)
    | none =>
      rw [hsc] at h
      have := h
      simpa using this.symm

/-- Claim C10 witness: with nothing configured, resolution fails with
exactly the command-not-found message. -/
theorem load_errors_always_nil_witness :
    (LoadProjectConfig (fun _ => FileState.missing) "/nowhere.yml").2 = none
    ∧ (LoadPropertyConfigFile PropFileState.missing).2 = none
    ∧ GetCommandConfiguration (fun _ => FileState.missing) PropFileState.missing "x" none []
        "/g" = Except.error "no configuration for command x found"
    ∧ ("no configuration for command x found"
        = "no configuration for command " ++ "x" ++ " found") :=
  ⟨(load_errors_always_nil (fun _ => FileState.missing) PropFileState.missing "/nowhere.yml").1,
    (load_errors_always_nil (fun _ => FileState.missing) PropFileState.missing "/nowhere.yml").2.1,
    by rfl,
    (load_errors_always_nil (fun _ => FileState.missing) PropFileState.missing "/nowhere.yml").2.2
      "x" none [] "/g" "no configuration for command x found" (by rfl)⟩

/-! ### Claim theorems: property store -/

/-- Claim C6: for an allow-listed key, `get` after `set` returns the value
just set; for a key outside the allow-list, `set` leaves the persisted
store untouched and `get` returns the empty string. -/
theorem propertyStore_set_get (disk : PropFileState) (k v : String) :
    (InArray k validConfigurationOptions = true →
      GetPropertyConfigEntry (SetPropertyConfigEntry disk k v) k = v)
    ∧ (InArray k validConfigurationOptions = false →
      SetPropertyConfigEntry disk k v = disk ∧ GetPropertyConfigEntry disk k = "") := by
  constructor
  · intro h
    simp [SetPropertyConfigEntry, GetPropertyConfigEntry, h, SavePropertyConfigFile,
      LoadPropertyConfigFile, mapGetDef_mapSet_self]
  · intro h
    simp [SetPropertyConfigEntry, GetPropertyConfigEntry, h]

/-- Claim C6 witness: `http-proxy` round-trips through `set`/`get`, and the
unrecognized key `bogus-key` is ignored by `set` and read as `""`. -/
theorem propertyStore_set_get_witness :
    (InArray "http-proxy" validConfigurationOptions = true
      ∧ GetPropertyConfigEntry
          (SetPropertyConfigEntry PropFileState.missing "http-proxy" "proxy1") "http-proxy"
        = "proxy1")
    ∧ (InArray "bogus-key" validConfigurationOptions = false
      ∧ SetPropertyConfigEntry PropFileState.missing "bogus-key" "x" = PropFileState.missing
      ∧ GetPropertyConfigEntry PropFileState.missing "bogus-key" = "") :=
  ⟨⟨by decide,
      (propertyStore_set_get PropFileState.missing "http-proxy" "proxy1").1 (by decide)⟩,
    ⟨by decide,
      ((propertyStore_set_get PropFileState.missing "bogus-key" "x").2 (by decide)).1,
      ((propertyStore_set_get PropFileState.missing "bogus-key" "x").2 (by decide)).2⟩⟩

/-- Claim C7: `unset` is exactly `set` with the empty string; after it, for
an allow-listed key `get` returns `""`, and a key that was present in the
persisted mapping is still present — only its value is blanked. -/
theorem propertyStore_unset_blanks (disk : PropFileState) (k : String) :
    UnsetPropertyConfigEntry disk k = SetPropertyConfigEntry disk k ""
    ∧ (InArray k validConfigurationOptions = true →
        GetPropertyConfigEntry (UnsetPropertyConfigEntry disk k) k = ""
        ∧ (mapHasKey (LoadPropertyConfigFile disk).1.Properties k = true →
            mapHasKey (LoadPropertyConfigFile (UnsetPropertyConfigEntry disk k)).1.Properties k
              = true)) := by
  refine ⟨rfl, fun h => ⟨?_, fun _ => ?_⟩⟩
  · simp [UnsetPropertyConfigEntry, GetPropertyConfigEntry, h, SavePropertyConfigFile,
      LoadPropertyConfigFile, mapGetDef_mapSet_self]
  · simp [UnsetPropertyConfigEntry, h, SavePropertyConfigFile, LoadPropertyConfigFile,
      mapHasKey_mapSet_self]

/-- Claim C7 witness: unsetting a previously set `http-proxy` blanks its
value but keeps the key in the persisted mapping. -/
theorem propertyStore_unset_blanks_witness :
    UnsetPropertyConfigEntry
        (PropFileState.parsed { Properties := [("http-proxy", "old")] }) "http-proxy"
      = SetPropertyConfigEntry
        (PropFileState.parsed { Properties := [("http-proxy", "old")] }) "http-proxy" ""
    ∧ InArray "http-proxy" validConfigurationOptions = true
    ∧ GetPropertyConfigEntry
        (UnsetPropertyConfigEntry
          (PropFileState.parsed { Properties := [("http-proxy", "old")] }) "http-proxy")
        "http-proxy" = ""
    ∧ mapHasKey (LoadPropertyConfigFile
        (PropFileState.parsed { Properties := [("http-proxy", "old")] })).1.Properties
        "http-proxy" = true
    ∧ mapHasKey (LoadPropertyConfigFile
        (UnsetPropertyConfigEntry
          (PropFileState.parsed { Properties := [("http-proxy", "old")] }) "http-proxy")).1.Properties
        "http-proxy" = true :=
  ⟨(propertyStore_unset_blanks
      (PropFileState.parsed { Properties := [("http-proxy", "old")] }) "http-proxy").1,
    by decide,
    ((propertyStore_unset_blanks
      (PropFileState.parsed { Properties := [("http-proxy", "old")] }) "http-proxy").2
      (by decide)).1,
    by decide,
    ((propertyStore_unset_blanks
      (PropFileState.parsed { Properties := [("http-proxy", "old")] }) "http-proxy").2
      (by decide)).2 (by decide)⟩

/-- Claim C9: `SetPropertyConfigEntry` changes no key other than the one
set — the value and the presence of every other key in the persisted
mapping are unchanged. -/
theorem propertyStore_set_frame (disk : PropFileState) (k v k2 : String) (h : k2 ≠ k) :
    mapGetDef (LoadPropertyConfigFile (SetPropertyConfigEntry disk k v)).1.Properties k2
      = mapGetDef (LoadPropertyConfigFile disk).1.Properties k2
    ∧ mapHasKey (LoadPropertyConfigFile (SetPropertyConfigEntry disk k v)).1.Properties k2
      = mapHasKey (LoadPropertyConfigFile disk).1.Properties k2 := by
  by_cases hv : InArray k validConfigurationOptions
  · constructor
    · simp [SetPropertyConfigEntry, hv, SavePropertyConfigFile, LoadPropertyConfigFile,
        mapGetDef_mapSet_other _ _ _ _ h]
    · simp [SetPropertyConfigEntry, hv, SavePropertyConfigFile, LoadPropertyConfigFile,
        mapHasKey_mapSet_other _ _ _ _ h]
  · simp [SetPropertyConfigEntry, hv]

/-- Claim C9 witness: setting `http-proxy` leaves the stored `cache-path`
value and presence untouched. -/
theorem propertyStore_set_frame_witness :
    ("cache-path" ≠ "http-proxy")
    ∧ mapGetDef (LoadPropertyConfigFile
        (SetPropertyConfigEntry
          (PropFileState.parsed { Properties := [("cache-path", "/c")] })
          "http-proxy" "p")).1.Properties "cache-path"
      = mapGetDef (LoadPropertyConfigFile
          (PropFileState.parsed { Properties := [("cache-path", "/c")] })).1.Properties
          "cache-path"
    ∧ mapHasKey (LoadPropertyConfigFile
        (SetPropertyConfigEntry
          (PropFileState.parsed { Properties := [("cache-path", "/c")] })
          "http-proxy" "p")).1.Properties "cache-path"
      = mapHasKey (LoadPropertyConfigFile
          (PropFileState.parsed { Properties := [("cache-path", "/c")] })).1.Properties
          "cache-path" :=
  ⟨by decide,
    (propertyStore_set_frame (PropFileState.parsed { Properties := [("cache-path", "/c")] })
      "http-proxy" "p" "cache-path" (by decide)).1,
    (propertyStore_set_frame (PropFileState.parsed { Properties := [("cache-path", "/c")] })
      "http-proxy" "p" "cache-path" (by decide)).2⟩

/-! ### Path lemmas for the project locator -/

lemma goodComp_spec (c : List Char) (h : goodComp c = true) :
    c ≠ [] ∧ '/' ∉ c ∧ c ≠ ['.'] ∧ c ≠ ['.', '.'] :=
  of_decide_eq_true h

lemma splitOnSlash_ne_nil (l : List Char) : splitOnSlash l ≠ [] := by
  cases l with
  | nil => simp [splitOnSlash]
  | cons ch rest =>
    by_cases h : ch = '/'
    · simp [splitOnSlash, h]
    · simp [splitOnSlash, h]

lemma splitOnSlash_slash_cons (l : List Char) :
    splitOnSlash ('/' :: l) = [] :: splitOnSlash l := by
  simp [splitOnSlash]

lemma splitOnSlash_no_slash_append (c l : List Char) (hc : '/' ∉ c) :
    splitOnSlash (c ++ l) = (c ++ (splitOnSlash l).headD []) :: (splitOnSlash l).tail := by
  induction c with
  | nil =>
    cases hsp : splitOnSlash l with
    | nil => exact absurd hsp (splitOnSlash_ne_nil l)
    | cons a t => simp [hsp]
  | cons ch rest ih =>
    have hch : ch ≠ '/' := fun he => hc (he ▸ List.mem_cons_self ch rest)
    have hrest : '/' ∉ rest := fun hm => hc (List.mem_cons_of_mem ch hm)
    have hch2 : ¬(ch = '/') := hch
    simp [splitOnSlash, hch2, ih hrest]

lemma dropWhile_append_of_all {α : Type} (p : α → Bool) (l1 l2 : List α)
    (h : ∀ x ∈ l1, p x = true) :
    (l1 ++ l2).dropWhile p = l2.dropWhile p := by
  induction l1 with
  | nil => rfl
  | cons a rest ih =>
    have ha : p a = true := h a (List.mem_cons_self a rest)
    rw [List.cons_append, List.dropWhile_cons_of_pos ha]
    exact ih (fun x hx => h x (List.mem_cons_of_mem a hx))

lemma joinSlash_cons_cons (c d : List Char) (rest : List (List Char)) :
    joinSlash (c :: d :: rest) = c ++ '/' :: joinSlash (d :: rest) := rfl

lemma joinSlash_append_single (comps : List (List Char)) (c : List Char) :
    comps ≠ [] → joinSlash (comps ++ [c]) = joinSlash comps ++ '/' :: c := by
  induction comps with
  | nil =>
    intro h
    exact absurd rfl h
  | cons a rest ih =>
    intro _
    cases rest with
    | nil => rfl
    | cons b rest2 =>
      have hstep := ih (by simp)
      simp only [List.cons_append] at hstep ⊢
      rw [joinSlash_cons_cons, joinSlash_cons_cons]
      rw [hstep]
      simp [List.append_assoc]

lemma joinSlash_ne_nil (a : List Char) (rest : List (List Char)) (ha : a ≠ []) :
    joinSlash (a :: rest) ≠ [] := by
  cases rest with
  | nil => simpa [joinSlash] using ha
  | cons b r2 => simp [joinSlash_cons_cons]

lemma absPath_cons_ne_root (a : List Char) (rest : List (List Char)) (ha : a ≠ []) :
    absPath (a :: rest) ≠ ['/'] := by
  intro h
  have : joinSlash (a :: rest) = [] := by
    simpa [absPath] using h
  exact joinSlash_ne_nil a rest ha this

lemma backslash_ne_absPath (comps : List (List Char)) :
    ¬((['\\'] : List Char) = absPath comps) := by
  simp [absPath]

lemma splitOnSlash_absPath_head (comps : List (List Char)) :
    (splitOnSlash (absPath comps)).headD [] = [] := by
  rw [show absPath comps = '/' :: joinSlash comps from rfl, splitOnSlash_slash_cons]
  rfl

lemma cleanComponents_good (rooted : Bool) (comps : List (List Char)) :
    ∀ acc, (∀ c ∈ comps, goodComp c = true) →
      cleanComponents rooted (comps ++ [[]]) acc = acc.reverse ++ comps := by
  induction comps with
  | nil =>
    intro acc _
    simp [cleanComponents]
  | cons c rest ih =>
    intro acc hgood
    obtain ⟨h1, _, h3, h4⟩ := goodComp_spec c (hgood c (List.mem_cons_self c rest))
    have hcond1 : ¬(c = [] ∨ c = ['.']) := by
      rintro (h | h)
      · exact h1 h
      · exact h3 h
    rw [List.cons_append]
    rw [show cleanComponents rooted (c :: (rest ++ [[]])) acc
        = cleanComponents rooted (rest ++ [[]]) (c :: acc) from by
      simp [cleanComponents, hcond1, h4]]
    rw [ih (c :: acc) (fun x hx => hgood x (List.mem_cons_of_mem c hx))]
    simp

lemma splitOnSlash_join_trailing (a : List Char) (rest : List (List Char)) :
    (∀ c ∈ a :: rest, '/' ∉ c) →
    splitOnSlash (joinSlash (a :: rest) ++ ['/']) = (a :: rest) ++ [[]] := by
  induction rest generalizing a with
  | nil =>
    intro hgood
    have ha : '/' ∉ a := hgood a (List.mem_cons_self a [])
    rw [show joinSlash [a] = a from rfl, splitOnSlash_no_slash_append a ['/'] ha]
    simp [splitOnSlash]
  | cons b rest2 ih =>
    intro hgood
    have ha : '/' ∉ a := hgood a (List.mem_cons_self a (b :: rest2))
    have hb : ∀ c ∈ b :: rest2, '/' ∉ c := fun c hc => hgood c (List.mem_cons_of_mem a hc)
    rw [joinSlash_cons_cons]
    rw [show (a ++ '/' :: joinSlash (b :: rest2)) ++ ['/']
        = a ++ ('/' :: (joinSlash (b :: rest2) ++ ['/'])) from by simp]
    rw [splitOnSlash_no_slash_append a _ ha, splitOnSlash_slash_cons, ih b hb]
    simp

lemma pathClean_root : pathClean ['/'] = ['/'] := by decide

lemma pathClean_abs_trailing (a : List Char) (rest : List (List Char))
    (hgood : ∀ c ∈ a :: rest, goodComp c = true) :
    pathClean (absPath (a :: rest) ++ ['/']) = absPath (a :: rest) := by
  have hslash : ∀ c ∈ a :: rest, '/' ∉ c := fun c hc => (goodComp_spec c (hgood c hc)).2.1
  have ha : a ≠ [] := (goodComp_spec a (hgood a (List.mem_cons_self a rest))).1
  rw [show absPath (a :: rest) ++ ['/'] = '/' :: (joinSlash (a :: rest) ++ ['/']) from by
    simp [absPath]]
  rw [pathClean]
  simp only [splitOnSlash_slash_cons, splitOnSlash_join_trailing a rest hslash]
  have hclean : cleanComponents ('/' == '/') ([] :: (a :: rest ++ [[]])) [] = a :: rest := by
    rw [show cleanComponents ('/' == '/') ([] :: (a :: rest ++ [[]])) []
        = cleanComponents ('/' == '/') (a :: rest ++ [[]]) [] from by
      simp [cleanComponents]]
    have hg := cleanComponents_good ('/' == '/') (a :: rest) [] hgood
    simpa using hg
  rw [hclean]
  simp [absPath, joinSlash_ne_nil a rest ha]

lemma dirUpToLastSlash_abs_single (c : List Char) (hc : '/' ∉ c) :
    dirUpToLastSlash (absPath [c]) = ['/'] := by
  have hall : ∀ x ∈ c.reverse, (x != '/') = true := by
    intro x hx
    have : x ∈ c := List.mem_reverse.mp hx
    have hxne : x ≠ '/' := fun he => hc (he ▸ this)
    simp [hxne]
  rw [show absPath [c] = '/' :: c from rfl]
  rw [dirUpToLastSlash]
  rw [List.reverse_cons, dropWhile_append_of_all _ c.reverse ['/'] hall]
  simp [List.dropWhile]

lemma dirUpToLastSlash_abs_append (comps : List (List Char)) (c : List Char)
    (hne : comps ≠ []) (hc : '/' ∉ c) :
    dirUpToLastSlash (absPath (comps ++ [c])) = absPath comps ++ ['/'] := by
  have hall : ∀ x ∈ c.reverse, (x != '/') = true := by
    intro x hx
    have : x ∈ c := List.mem_reverse.mp hx
    have hxne : x ≠ '/' := fun he => hc (he ▸ this)
    simp [hxne]
  rw [show absPath (comps ++ [c]) = '/' :: joinSlash (comps ++ [c]) from rfl]
  rw [joinSlash_append_single comps c hne]
  rw [dirUpToLastSlash]
  rw [show ('/' :: (joinSlash comps ++ '/' :: c)).reverse
      = c.reverse ++ ('/' :: ((joinSlash comps).reverse ++ ['/'])) from by simp]
  rw [dropWhile_append_of_all _ c.reverse _ hall]
  rw [List.dropWhile_cons_of_neg (by simp)]
  simp [absPath]

lemma filepathDir_abs_append (comps : List (List Char)) (c : List Char) (hc : '/' ∉ c)
    (hgood : ∀ x ∈ comps, goodComp x = true) :
    filepathDir (absPath (comps ++ [c])) = absPath comps := by
  cases comps with
  | nil =>
    rw [filepathDir, show (([] : List (List Char)) ++ [c]) = [c] from rfl,
      dirUpToLastSlash_abs_single c hc]
    exact pathClean_root
  | cons a rest =>
    rw [filepathDir, dirUpToLastSlash_abs_append (a :: rest) c (by simp) hc]
    exact pathClean_abs_trailing a rest hgood

lemma dropLast_take (l : List (List Char)) (j : Nat) (h : j ≤ l.length - 1) :
    l.dropLast.take j = l.take j := by
  rw [List.dropLast_eq_take, List.take_take, Nat.min_eq_left h]

lemma goodComps_mem (comps : List (List Char)) (h : goodComps comps = true) :
    ∀ x ∈ comps, goodComp x = true := by
  simpa [goodComps, List.all_eq_true] using h

lemma goodComps_dropLast (comps : List (List Char)) (h : goodComps comps = true) :
    goodComps comps.dropLast = true := by
  rw [goodComps, List.all_eq_true]
  intro x hx
  have hxm : x ∈ comps := by
    rw [List.dropLast_eq_take] at hx
    exact List.take_subset _ _ hx
  exact goodComps_mem comps h x hxm

lemma loop_marker (hasMarker : List Char → Bool) (fuel : Nat) (dir : List Char)
    (hm : hasMarker dir = true) :
    GetProjectDirectoryLoop hasMarker [] (fuel + 1) dir = some (LocateResult.found dir) := by
  simp [GetProjectDirectoryLoop, hm]

lemma loop_at_root (hasMarker : List Char → Bool) (fuel : Nat)
    (h : hasMarker ['/'] = false) :
    GetProjectDirectoryLoop hasMarker [] (fuel + 1) ['/'] = some LocateResult.notFound := by
  simp [GetProjectDirectoryLoop, h]

lemma loop_step (hasMarker : List Char → Bool) (fuel : Nat) (a : List Char)
    (rest : List (List Char)) (ha : a ≠ [])
    (hm : hasMarker (absPath (a :: rest)) = false) :
    GetProjectDirectoryLoop hasMarker [] (fuel + 1) (absPath (a :: rest))
      = GetProjectDirectoryLoop hasMarker [] fuel (filepathDir (absPath (a :: rest))) := by
  have h1 := backslash_ne_absPath (a :: rest)
  have h2 := absPath_cons_ne_root a rest ha
  simp [GetProjectDirectoryLoop, hm, h1, h2]

lemma filepathDir_dropLast (a : List Char) (rest : List (List Char))
    (hgood : ∀ x ∈ a :: rest, goodComp x = true) :
    filepathDir (absPath (a :: rest)) = absPath ((a :: rest).dropLast) := by
  have hne : (a :: rest) ≠ [] := by simp
  have hlast : '/' ∉ (a :: rest).getLast hne :=
    (goodComp_spec _ (hgood _ (List.getLast_mem hne))).2.1
  have hgdrop : ∀ x ∈ (a :: rest).dropLast, goodComp x = true := by
    intro x hx
    have hxm : x ∈ (a :: rest) := by
      rw [List.dropLast_eq_take] at hx
      exact List.take_subset _ _ hx
    exact hgood x hxm
  have hsplit : (a :: rest).dropLast ++ [(a :: rest).getLast hne] = (a :: rest) :=
    List.dropLast_append_getLast hne
  have hd := filepathDir_abs_append ((a :: rest).dropLast) ((a :: rest).getLast hne)
    hlast hgdrop
  rw [hsplit] at hd
  exact hd

lemma loop_notFound (hasMarker : List Char → Bool) :
    ∀ n (comps : List (List Char)), comps.length ≤ n → goodComps comps = true →
      (∀ j, j ≤ comps.length → hasMarker (absPath (comps.take j)) = false) →
      GetProjectDirectoryLoop hasMarker [] (n + 1) (absPath comps)
        = some LocateResult.notFound := by
  intro n
  induction n with
  | zero =>
    intro comps hlen _ hnone
    have hcomps : comps = [] := List.length_eq_zero.mp (Nat.le_zero.mp hlen)
    subst hcomps
    have hroot : hasMarker ['/'] = false := by
      simpa [absPath, joinSlash] using hnone 0 (by simp)
    exact loop_at_root hasMarker 0 hroot
  | succ n ih =>
    intro comps hlen hgood hnone
    cases comps with
    | nil =>
      have hroot : hasMarker ['/'] = false := by
        simpa [absPath, joinSlash] using hnone 0 (by simp)
      exact loop_at_root hasMarker (n + 1) hroot
    | cons a rest =>
      have hgood' := goodComps_mem (a :: rest) hgood
      have ha : a ≠ [] := (goodComp_spec a (hgood' a (List.mem_cons_self a rest))).1
      have hm : hasMarker (absPath (a :: rest)) = false := by
        have hend := hnone (a :: rest).length (le_refl _)
        simpa [List.take_length] using hend
      rw [loop_step hasMarker (n + 1) a rest ha hm, filepathDir_dropLast a rest hgood']
      have hlc : (a :: rest).length = rest.length + 1 := by simp
      have hlen2 : (a :: rest).dropLast.length ≤ n := by
        rw [List.length_dropLast, hlc]
        rw [hlc] at hlen
        omega
      apply ih _ hlen2 (goodComps_dropLast _ hgood)
      intro j hj
      rw [List.length_dropLast, hlc] at hj
      rw [dropLast_take _ j (by rw [hlc]; omega)]
      exact hnone j (by rw [hlc]; omega)

lemma loop_found (hasMarker : List Char → Bool) :
    ∀ n (comps : List (List Char)), comps.length ≤ n → goodComps comps = true →
      (∃ k, k ≤ comps.length ∧ hasMarker (absPath (comps.take k)) = true) →
      ∃ m, m ≤ comps.length
        ∧ GetProjectDirectoryLoop hasMarker [] (n + 1) (absPath comps)
            = some (LocateResult.found (absPath (comps.take m)))
        ∧ hasMarker (absPath (comps.take m)) = true
        ∧ ∀ j, j ≤ comps.length → hasMarker (absPath (comps.take j)) = true → j ≤ m := by
  intro n
  induction n with
  | zero =>
    intro comps hlen _ hex
    have hcomps : comps = [] := List.length_eq_zero.mp (Nat.le_zero.mp hlen)
    subst hcomps
    obtain ⟨k, hk, hmk⟩ := hex
    have hk0 : k = 0 := Nat.le_zero.mp hk
    subst hk0
    exact ⟨0, le_refl 0, loop_marker hasMarker 0 _ hmk, hmk, fun j hj _ => hj⟩
  | succ n ih =>
    intro comps hlen hgood hex
    cases hmc : hasMarker (absPath comps) with
    | true =>
      refine ⟨comps.length, le_refl _, ?_, ?_, fun j hj _ => hj⟩
      · rw [List.take_length]
        exact loop_marker hasMarker (n + 1) _ hmc
      · rw [List.take_length]
        exact hmc
    | false =>
      cases comps with
      | nil =>
        obtain ⟨k, hk, hmk⟩ := hex
        have hk0 : k = 0 := Nat.le_zero.mp hk
        subst hk0
        simp only [List.take_zero] at hmk
        exact absurd hmk (by simp [hmc])
      | cons a rest =>
        obtain ⟨k, hk, hmk⟩ := hex
        have hgood' := goodComps_mem (a :: rest) hgood
        have ha : a ≠ [] := (goodComp_spec a (hgood' a (List.mem_cons_self a rest))).1
        rw [loop_step hasMarker (n + 1) a rest ha hmc, filepathDir_dropLast a rest hgood']
        have hlc : (a :: rest).length = rest.length + 1 := by simp
        have hlen2 : (a :: rest).dropLast.length ≤ n := by
          rw [List.length_dropLast, hlc]
          rw [hlc] at hlen
          omega
        have hklt : k < (a :: rest).length := by
          rcases Nat.lt_or_ge k (a :: rest).length with h | h
          · exact h
          · exfalso
            have hke : k = (a :: rest).length := le_antisymm hk h
            rw [hke, List.take_length] at hmk
            exact absurd hmk (by simp [hmc])
        have hex2 : ∃ k2, k2 ≤ (a :: rest).dropLast.length
            ∧ hasMarker (absPath ((a :: rest).dropLast.take k2)) = true := by
          refine ⟨k, ?_, ?_⟩
          · rw [List.length_dropLast, hlc]
            rw [hlc] at hklt
            omega
          · rw [dropLast_take _ k (by rw [hlc]; rw [hlc] at hklt; omega)]
            exact hmk
        obtain ⟨m, hmle, hloop, hmark, hmax⟩ :=
          ih (a :: rest).dropLast hlen2 (goodComps_dropLast _ hgood) hex2
        have hmm : m ≤ (a :: rest).length - 1 := by
          rw [List.length_dropLast] at hmle
          exact hmle
        have htake : (a :: rest).dropLast.take m = (a :: rest).take m :=
          dropLast_take _ m hmm
        refine ⟨m, ?_, ?_, ?_, ?_⟩
        · rw [hlc]
          rw [hlc] at hmm
          omega
        · rw [htake] at hloop
          exact hloop
        · rw [htake] at hmark
          exact hmark
        · intro j hj hjm
          rcases Nat.lt_or_ge j (a :: rest).length with hlt | hge
          · apply hmax j
            · rw [List.length_dropLast, hlc]
              rw [hlc] at hlt
              omega
            · rw [dropLast_take _ j (by rw [hlc]; rw [hlc] at hlt; omega)]
              exact hjm
          · exfalso
            have hje : j = (a :: rest).length := le_antisymm hj hge
            rw [hje, List.take_length] at hjm
            exact absurd hjm (by simp [hmc])

/-! ### Claim theorems: project locator -/

/-- Claim C4: starting from a canonical absolute directory, the locator
returns an ancestor (`comps.take m`, possibly the start itself) that
contains the marker, and no marked ancestor is closer to the start: every
`j`-component ancestor containing the marker satisfies `j ≤ m`. -/
theorem getProjectDirectory_nearest (hasMarker : List Char → Bool)
    (comps : List (List Char)) (hgood : goodComps comps = true) (k : Nat)
    (hk : k ≤ comps.length) (hmk : hasMarker (absPath (comps.take k)) = true) :
    ∃ m, m ≤ comps.length
      ∧ GetProjectDirectory hasMarker (absPath comps) (comps.length + 1)
          = some (LocateResult.found (absPath (comps.take m)))
      ∧ hasMarker (absPath (comps.take m)) = true
      ∧ ∀ j, j ≤ comps.length → hasMarker (absPath (comps.take j)) = true → j ≤ m := by
  rw [GetProjectDirectory, splitOnSlash_absPath_head]
  exact loop_found hasMarker comps.length comps (le_refl _) hgood ⟨k, hk, hmk⟩

/-- Claim C4 witness: starting at `/a/b` with the marker only at `/a`, the
locator stops at `/a`, the nearest marked ancestor. -/
theorem getProjectDirectory_nearest_witness :
    goodComps [['a'], ['b']] = true
    ∧ (fun d => d == ['/', 'a']) (absPath ([['a'], ['b']].take 1)) = true
    ∧ ∃ m, m ≤ ([['a'], ['b']] : List (List Char)).length
      ∧ GetProjectDirectory (fun d => d == ['/', 'a']) (absPath [['a'], ['b']])
          (([['a'], ['b']] : List (List Char)).length + 1)
          = some (LocateResult.found (absPath ([['a'], ['b']].take m)))
      ∧ (fun d => d == ['/', 'a']) (absPath ([['a'], ['b']].take m)) = true
      ∧ ∀ j, j ≤ ([['a'], ['b']] : List (List Char)).length →
          (fun d => d == ['/', 'a']) (absPath ([['a'], ['b']].take j)) = true → j ≤ m :=
  ⟨by decide, by decide,
    getProjectDirectory_nearest (fun d => d == ['/', 'a']) [['a'], ['b']] (by decide) 1
      (by decide) (by decide)⟩

/-- Claim C5: starting from a canonical absolute directory none of whose
ancestors (up to and including the root) contains the marker, the ascent
terminates within `comps.length + 1` iterations and reports `NotFound`:
the walk stops at the filesystem root rather than running forever. -/
theorem getProjectDirectory_notFound (hasMarker : List Char → Bool)
    (comps : List (List Char)) (hgood : goodComps comps = true)
    (hnone : ∀ j, j ≤ comps.length → hasMarker (absPath (comps.take j)) = false) :
    GetProjectDirectory hasMarker (absPath comps) (comps.length + 1)
      = some LocateResult.notFound := by
  rw [GetProjectDirectory, splitOnSlash_absPath_head]
  exact loop_notFound hasMarker comps.length comps (le_refl _) hgood hnone

/-- Claim C5 witness: with no marker anywhere, the walk from `/a/b`
terminates at the root with `NotFound`. -/
theorem getProjectDirectory_notFound_witness :
    goodComps [['a'], ['b']] = true
    ∧ (∀ j, j ≤ ([['a'], ['b']] : List (List Char)).length →
        (fun _ : List Char => false) (absPath ([['a'], ['b']].take j)) = false)
    ∧ GetProjectDirectory (fun _ => false) (absPath [['a'], ['b']])
        (([['a'], ['b']] : List (List Char)).length + 1)
      = some LocateResult.notFound :=
  ⟨by decide, by decide,
    getProjectDirectory_notFound (fun _ => false) [['a'], ['b']] (by decide)
      (by decide)⟩
